import Mathlib

/-!
Verification of the structural core of `summarizer.py`: outline
classification, tree construction, page-range resolution, fragment
routing and export ordering. Nodes are embedded as explicit records;
the Python dict keyed by chapter title is embedded as an
insertion-ordered association list with replace-in-place insertion.
Pre-resolution nodes (whose `end` field is still `None` in the source)
and resolved nodes are given separate record types.
-/

set_option autoImplicit false

namespace Summarizer

/-- One outline entry `(level, title, page)` as returned by `doc.get_toc()`. -/
structure OutlineEntry where
  level : Int
  title : String
  page : Int
  deriving DecidableEq

/-- A section node before range resolution (its `end` is still unset). -/
structure SecRaw where
  title : String
  level : Int
  start : Int
  deriving DecidableEq

/-- A chapter node before range resolution. -/
structure ChapterRaw where
  start : Int
  sections : List SecRaw
  deriving DecidableEq

/-- A part node before range resolution; `chapters` models the Python dict
`current_part["chapters"]` as an insertion-ordered association list. -/
structure PartRaw where
  title : String
  start : Int
  chapters : List (String × ChapterRaw)
  other_sections : List SecRaw
  deriving DecidableEq

/-- A resolved section node, with its inclusive `[start, end]` range and
its accumulated `knowledge` fragments. -/
structure SecR where
  title : String
  level : Int
  start : Int
  end_ : Int
  knowledge : List String
  deriving DecidableEq

/-- A resolved chapter node. -/
structure ChapterR where
  start : Int
  end_ : Int
  chapter_knowledge : List String
  sections : List SecR
  deriving DecidableEq

/-- A resolved part node. -/
structure PartR where
  title : String
  start : Int
  end_ : Int
  part_knowledge : List String
  chapters : List (String × ChapterR)
  other_sections : List SecR
  deriving DecidableEq

/-! ## Outline classifier: PART_PATTERN and CHAPTER_PATTERN -/

/-- Python `\s` on ASCII text: the whitespace characters recognised by
`re` in the patterns `^\s*Part\s+` and `^\s*Chapter\s+\d+`. -/
def pySpace (c : Char) : Bool :=
  c = ' ' || c = '\t' || c = '\n' || c = '\r' || c = '\x0b' || c = '\x0c'

/-- Case-insensitively strip a (lowercase) literal pattern from the front
of a character list, returning the remainder on success. -/
def stripCI : List Char → List Char → Option (List Char)
  | [], rest => some rest
  | _ :: _, [] => none
  | p :: ps, c :: cs => if c.toLower = p then stripCI ps cs else none

/-- `PART_PATTERN.search(title)`: `^\s*Part\s+`, case-insensitive. -/
def partMatch (title : String) : Bool :=
  match stripCI ['p', 'a', 'r', 't'] (title.data.dropWhile pySpace) with
  | some (c :: _) => pySpace c
  | _ => false

/-- `CHAPTER_PATTERN.search(title)`: `^\s*Chapter\s+\d+`, case-insensitive. -/
def chapterMatch (title : String) : Bool :=
  match stripCI ['c', 'h', 'a', 'p', 't', 'e', 'r'] (title.data.dropWhile pySpace) with
  | some (c :: cs) =>
      pySpace c &&
        (match cs.dropWhile pySpace with
         | d :: _ => d.isDigit
         | [] => false)
  | _ => false

/-! ## Tree builder (the classification loop over `toc`) -/

/-- Python-dict insertion for `current_part["chapters"][title] = {...}`:
replace in place when the key exists (keeping its position), else append. -/
def dictInsert (k : String) (v : ChapterRaw) : List (String × ChapterRaw) → List (String × ChapterRaw)
  | [] => [(k, v)]
  | (k', v') :: rest => if k' = k then (k, v) :: rest else (k', v') :: dictInsert k v rest

/-- First-match lookup in the chapter association list. -/
def lookupT (k : String) : List (String × ChapterRaw) → Option ChapterRaw
  | [] => none
  | (k', v) :: rest => if k' = k then some v else lookupT k rest

/-- Append a freshly seen section to the most recently declared chapter
(`chapters_in_part[-1]` in the source: the last key in dict order). -/
def appendSecToLast (s : SecRaw) : List (String × ChapterRaw) → List (String × ChapterRaw)
  | [] => []
  | [(t, c)] => [(t, { c with sections := c.sections ++ [s] })]
  | x :: y :: rest => x :: appendSecToLast s (y :: rest)

/-- Builder state: the closed parts and the currently open part. -/
structure BuildState where
  parts : List PartRaw
  current : Option PartRaw
  deriving DecidableEq

/-- One iteration of the classification loop over the outline. -/
def buildStep (st : BuildState) (e : OutlineEntry) : BuildState :=
  let start_idx := e.page - 1
  if e.level = 1 ∧ partMatch e.title then
    { parts := st.parts ++ st.current.toList,
      current := some ⟨e.title, start_idx, [], []⟩ }
  else if e.level = 2 ∧ chapterMatch e.title ∧ st.current.isSome then
    match st.current with
    | some p => { st with current := some { p with chapters := dictInsert e.title ⟨start_idx, []⟩ p.chapters } }
    | none => st
  else
    match st.current with
    | none => st
    | some p =>
      if p.chapters = [] then
        { st with current := some { p with other_sections := p.other_sections ++ [⟨e.title, e.level, start_idx⟩] } }
      else
        { st with current := some { p with chapters := appendSecToLast ⟨e.title, e.level, start_idx⟩ p.chapters } }

/-- The full classification loop: fold the outline, then close the last part. -/
def buildToc (toc : List OutlineEntry) : List PartRaw :=
  let st := toc.foldl buildStep ⟨[], none⟩
  st.parts ++ st.current.toList

/-- The `if not toc:` fallback replacing an empty outline by
`[[1, "Part I (Entire PDF)", 1]]`. -/
def tocWithFallback (toc : List OutlineEntry) : List OutlineEntry :=
  if toc = [] then [⟨1, "Part I (Entire PDF)", 1⟩] else toc

/-- Build the part list from an outline, applying the empty-outline fallback. -/
def buildTocFb (toc : List OutlineEntry) : List PartRaw :=
  buildToc (tocWithFallback toc)

/-! ## Range resolver -/

/-- Resolve a sibling list of sections: each non-last section's `end` is the
next section's `start - 1`; the last gets the parent's `end`. -/
def resolveSecs (pEnd : Int) : List SecRaw → List SecR
  | [] => []
  | [s] => [⟨s.title, s.level, s.start, pEnd, []⟩]
  | s :: s' :: rest => ⟨s.title, s.level, s.start, s'.start - 1, []⟩ :: resolveSecs pEnd (s' :: rest)

/-- Resolve one chapter given its own resolved `end`. -/
def resolveChapter (e : Int) (c : ChapterRaw) : ChapterR :=
  ⟨c.start, e, [], resolveSecs e c.sections⟩

/-- Resolve a sibling list of chapters against the owning part's `end`. -/
def resolveChapters (pEnd : Int) : List (String × ChapterRaw) → List (String × ChapterR)
  | [] => []
  | [(t, c)] => [(t, resolveChapter pEnd c)]
  | (t, c) :: (t', c') :: rest => (t, resolveChapter (c'.start - 1) c) :: resolveChapters pEnd ((t', c') :: rest)

/-- Resolve one part given its own resolved `end`. -/
def resolvePart (e : Int) (p : PartRaw) : PartR :=
  ⟨p.title, p.start, e, [], resolveChapters e p.chapters, resolveSecs e p.other_sections⟩

/-- Resolve the part list: each non-last part's `end` is the next part's
`start - 1`; the last part's `end` is `total_pages - 1`. -/
def resolveParts (totalPages : Int) : List PartRaw → List PartR
  | [] => []
  | [p] => [resolvePart (totalPages - 1) p]
  | p :: q :: rest => resolvePart (q.start - 1) p :: resolveParts totalPages (q :: rest)

/-! ## Fragment router (the per-page assignment loop) -/

/-- The containment test `sub_sec["start"] <= page_i <= sub_sec["end"]`. -/
def secContains (s : SecR) (pg : Int) : Bool :=
  s.start ≤ pg && pg ≤ s.end_

/-- The containment test `c_s <= page_i <= c_e` for a chapter. -/
def chContains (c : ChapterR) (pg : Int) : Bool :=
  c.start ≤ pg && pg ≤ c.end_

/-- Apply `f` to the LAST element satisfying `p` (the element found first by
a reversed-order scan with `break`), if any. -/
def updateLast {α : Type} (p : α → Bool) (f : α → α) : List α → Option (List α)
  | [] => none
  | x :: xs =>
    match updateLast p f xs with
    | some xs' => some (x :: xs')
    | none => if p x then some (f x :: xs) else none

/-- Apply `f` to the FIRST element satisfying `p` (a forward scan with
`break`), if any. -/
def updateFirst {α : Type} (p : α → Bool) (f : α → α) : List α → Option (List α)
  | [] => none
  | x :: xs => if p x then some (f x :: xs) else (updateFirst p f xs).map (x :: ·)

/-- Within a matched chapter: forward scan of its sections for one whose
range contains the page; fall back to chapter-level knowledge. -/
def routeChapter (pg : Int) (ks : List String) (c : ChapterR) : ChapterR :=
  match updateFirst (fun s => secContains s pg) (fun s => { s with knowledge := s.knowledge ++ ks }) c.sections with
  | some secs => { c with sections := secs }
  | none => { c with chapter_knowledge := c.chapter_knowledge ++ ks }

/-- Route one page's fragments into a part: chapters are scanned in reverse
order, then loose sections in reverse order, then part level. -/
def route (part : PartR) (pg : Int) (ks : List String) : PartR :=
  match updateLast (fun tc => chContains tc.2 pg) (fun tc => (tc.1, routeChapter pg ks tc.2)) part.chapters with
  | some chs => { part with chapters := chs }
  | none =>
    match updateLast (fun s => secContains s pg) (fun s => { s with knowledge := s.knowledge ++ ks }) part.other_sections with
    | some os => { part with other_sections := os }
    | none => { part with part_knowledge := part.part_knowledge ++ ks }

/-- A whole routing run: a sequence of `(pageIndex, fragments)` calls. -/
def routeAll (part : PartR) (calls : List (Int × List String)) : PartR :=
  calls.foldl (fun p c => route p c.1 c.2) part

/-! ## Aggregator / export ordering -/

/-- `part_combined`: the part's own knowledge extended, in order, with each
loose section's knowledge (chapters are NOT added). -/
def partCombined (p : PartR) : List String :=
  p.other_sections.foldl (fun acc o => acc ++ o.knowledge) p.part_knowledge

/-- `combined_chap`: the chapter's own knowledge extended, in order, with
each of its sections' knowledge. -/
def chapterCombined (c : ChapterR) : List String :=
  c.sections.foldl (fun acc s => acc ++ s.knowledge) c.chapter_knowledge

/-- The numbered-emission loop `for i, sec in enumerate(secs, start=1)` with
`continue` on an empty knowledge list: emitted units keep the enumerate
counter as their numeric filename prefix. -/
def emitAux (i : Nat) : List SecR → List (Nat × SecR)
  | [] => []
  | s :: rest => if s.knowledge = [] then emitAux (i + 1) rest else (i, s) :: emitAux (i + 1) rest

/-- Numbered emission of a sibling list of sections, counting from 1. -/
def emitNumbered (secs : List SecR) : List (Nat × SecR) :=
  emitAux 1 secs

/-! ## Spec-side checkers and verification apparatus -/

/-- Checker following the spec's sibling-range property: over a sibling
list (projected to `(start, end)` pairs), each non-last sibling's `end + 1`
equals the next sibling's `start`, and the last sibling's `end` equals the
parent's `end`. -/
def sibOkBy {α : Type} (f : α → Int × Int) (pEnd : Int) : List α → Bool
  | [] => true
  | [a] => (f a).2 == pEnd
  | a :: b :: rest => ((f a).2 + 1 == (f b).1) && sibOkBy f pEnd (b :: rest)

/-- The `(start, end)` range of a resolved section. -/
def secRange (s : SecR) : Int × Int := (s.start, s.end_)

/-- The `(start, end)` range of a resolved chapter. -/
def chRange (c : ChapterR) : Int × Int := (c.start, c.end_)

/-- The `(start, end)` range of a resolved part. -/
def partRange (p : PartR) : Int × Int := (p.start, p.end_)

/-- Checker following the spec's words for the whole tree: the parts
partition up to `totalPages - 1`, each part's chapters and loose sections
partition up to the part's `end`, and each chapter's sections partition up
to the chapter's `end`. -/
def resolvedOk (totalPages : Int) (ps : List PartR) : Bool :=
  sibOkBy partRange (totalPages - 1) ps
    && ps.all fun p =>
      sibOkBy (fun tc => chRange tc.2) p.end_ p.chapters
        && sibOkBy secRange p.end_ p.other_sections
        && p.chapters.all fun tc => sibOkBy secRange tc.2.end_ tc.2.sections

/-- Replace the element at one index by `f` of it (identity out of range). -/
def listModify {α : Type} (f : α → α) : Nat → List α → List α
  | _, [] => []
  | 0, x :: xs => f x :: xs
  | n + 1, x :: xs => x :: listModify f n xs

/-- The single node of a part receiving one routing call's fragments. -/
inductive RouteLoc where
  | atPart : RouteLoc
  | atChapter (i : Nat) : RouteLoc
  | atSection (i j : Nat) : RouteLoc
  | atOther (j : Nat) : RouteLoc
  deriving DecidableEq

/-- Append fragments to the own-fragments list of the node at one location,
leaving every other node untouched. -/
def appendKsAt (ℓ : RouteLoc) (ks : List String) (p : PartR) : PartR :=
  match ℓ with
  | .atPart => { p with part_knowledge := p.part_knowledge ++ ks }
  | .atChapter i => { p with chapters := listModify (fun tc => (tc.1, { tc.2 with chapter_knowledge := tc.2.chapter_knowledge ++ ks })) i p.chapters }
  | .atSection i j => { p with chapters := listModify (fun tc => (tc.1, { tc.2 with sections := listModify (fun s => { s with knowledge := s.knowledge ++ ks }) j tc.2.sections })) i p.chapters }
  | .atOther j => { p with other_sections := listModify (fun s => { s with knowledge := s.knowledge ++ ks }) j p.other_sections }

/-- The multiset of fragments stored on a section. -/
def secFragsM (s : SecR) : Multiset String := (s.knowledge : Multiset String)

/-- The multiset of fragments stored on a chapter and its sections. -/
def chFragsM (c : ChapterR) : Multiset String :=
  (c.chapter_knowledge : Multiset String) + (c.sections.map secFragsM).sum

/-- The multiset of all fragments stored anywhere in a part's tree. -/
def partFragsM (p : PartR) : Multiset String :=
  (p.part_knowledge : Multiset String)
    + (p.chapters.map fun tc => chFragsM tc.2).sum
    + (p.other_sections.map secFragsM).sum

/-! ## Concrete outlines used by the counterexamples and witnesses -/

/-- The spec's scenario 1 outline. -/
def tocC9 : List OutlineEntry :=
  [⟨1, "Part I", 1⟩, ⟨2, "Chapter 1", 1⟩, ⟨2, "Chapter 2", 10⟩]

/-- A single part starting on page 3 (outline page numbers are 1-based). -/
def tocC1 : List OutlineEntry := [⟨1, "Part I", 3⟩]

/-- Two chapters declared on the same page 5. -/
def tocC3 : List OutlineEntry :=
  [⟨1, "Part I", 1⟩, ⟨2, "Chapter 1", 5⟩, ⟨2, "Chapter 2", 5⟩]

/-- A chapter with three sections whose pages are out of order, producing
overlapping sibling section ranges after resolution. -/
def tocC5 : List OutlineEntry :=
  [⟨1, "Part I", 1⟩, ⟨2, "Chapter 1", 1⟩, ⟨3, "SA", 1⟩, ⟨3, "SB", 10⟩, ⟨3, "SC", 4⟩]

/-- Two chapter entries sharing the title "Chapter 1", with a section
attached to the first before the second appears. -/
def tocC10 : List OutlineEntry :=
  [⟨1, "Part I", 1⟩, ⟨2, "Chapter 1", 2⟩, ⟨3, "Sec A", 3⟩, ⟨2, "Chapter 1", 5⟩]

/-! ## Resolver lemmas -/

theorem resolveSecs_cons_shape (pEnd : Int) (s : SecRaw) (l : List SecRaw) :
    ∃ e t, resolveSecs pEnd (s :: l) = (⟨s.title, s.level, s.start, e, []⟩ : SecR) :: t := by
  cases l <;> exact ⟨_, _, rfl⟩

theorem sibOkBy_resolveSecs (pEnd : Int) : ∀ l : List SecRaw,
    sibOkBy secRange pEnd (resolveSecs pEnd l) = true := by
  intro l
  induction l with
  | nil => rfl
  | cons s t ih =>
    cases t with
    | nil => simp [resolveSecs, sibOkBy, secRange]
    | cons s' t' =>
      obtain ⟨e, t2, ht⟩ := resolveSecs_cons_shape pEnd s' t'
      rw [show resolveSecs pEnd (s :: s' :: t') =
        (⟨s.title, s.level, s.start, s'.start - 1, []⟩ : SecR) :: resolveSecs pEnd (s' :: t') from rfl, ht]
      rw [ht] at ih
      simp only [sibOkBy, secRange] at ih ⊢
      simp [ih, Int.sub_add_cancel]

theorem resolveChapters_cons_shape (pEnd : Int) (tc : String × ChapterRaw)
    (l : List (String × ChapterRaw)) :
    ∃ e t, resolveChapters pEnd (tc :: l) = (tc.1, resolveChapter e tc.2) :: t := by
  cases l <;> exact ⟨_, _, rfl⟩

theorem sibOkBy_resolveChapters (pEnd : Int) : ∀ l : List (String × ChapterRaw),
    sibOkBy (fun tc => chRange tc.2) pEnd (resolveChapters pEnd l) = true := by
  intro l
  induction l with
  | nil => rfl
  | cons tc t ih =>
    cases t with
    | nil => simp [resolveChapters, sibOkBy, resolveChapter, chRange]
    | cons tc' t' =>
      obtain ⟨e, t2, ht⟩ := resolveChapters_cons_shape pEnd tc' t'
      rw [show resolveChapters pEnd (tc :: tc' :: t') =
        (tc.1, resolveChapter (tc'.2.start - 1) tc.2) :: resolveChapters pEnd (tc' :: t') from rfl, ht]
      rw [ht] at ih
      simp only [sibOkBy, resolveChapter, chRange] at ih ⊢
      simp [ih, Int.sub_add_cancel]

theorem resolveParts_cons_shape (total : Int) (p : PartRaw) (l : List PartRaw) :
    ∃ e t, resolveParts total (p :: l) = resolvePart e p :: t := by
  cases l <;> exact ⟨_, _, rfl⟩

theorem sibOkBy_resolveParts (total : Int) : ∀ l : List PartRaw,
    sibOkBy partRange (total - 1) (resolveParts total l) = true := by
  intro l
  induction l with
  | nil => rfl
  | cons p t ih =>
    cases t with
    | nil => simp [resolveParts, sibOkBy, resolvePart, partRange]
    | cons q t' =>
      obtain ⟨e, t2, ht⟩ := resolveParts_cons_shape total q t'
      rw [show resolveParts total (p :: q :: t') =
        resolvePart (q.start - 1) p :: resolveParts total (q :: t') from rfl, ht]
      rw [ht] at ih
      simp only [sibOkBy, resolvePart, partRange] at ih ⊢
      simp [ih, Int.sub_add_cancel]

theorem mem_resolveParts (total : Int) : ∀ (l : List PartRaw) (r : PartR),
    r ∈ resolveParts total l → ∃ e p, p ∈ l ∧ r = resolvePart e p := by
  intro l
  induction l with
  | nil => intro r h; simp [resolveParts] at h
  | cons p t ih =>
    intro r h
    cases t with
    | nil =>
      simp [resolveParts] at h
      exact ⟨total - 1, p, by simp, h⟩
    | cons q t' =>
      rw [show resolveParts total (p :: q :: t') =
        resolvePart (q.start - 1) p :: resolveParts total (q :: t') from rfl] at h
      rcases List.mem_cons.mp h with h | h
      · exact ⟨q.start - 1, p, by simp, h⟩
      · obtain ⟨e, p', hmem, rfl⟩ := ih r h
        exact ⟨e, p', by simp [hmem], rfl⟩

theorem mem_resolveChapters (pEnd : Int) : ∀ (l : List (String × ChapterRaw)) (x : String × ChapterR),
    x ∈ resolveChapters pEnd l → ∃ e tc, tc ∈ l ∧ x = (tc.1, resolveChapter e tc.2) := by
  intro l
  induction l with
  | nil => intro x h; simp [resolveChapters] at h
  | cons tc t ih =>
    intro x h
    cases t with
    | nil =>
      simp [resolveChapters] at h
      exact ⟨pEnd, tc, by simp, by simp [h]⟩
    | cons tc' t' =>
      rw [show resolveChapters pEnd (tc :: tc' :: t') =
        (tc.1, resolveChapter (tc'.2.start - 1) tc.2) :: resolveChapters pEnd (tc' :: t') from rfl] at h
      rcases List.mem_cons.mp h with h | h
      · exact ⟨tc'.2.start - 1, tc, by simp, h⟩
      · obtain ⟨e, tc0, hmem, rfl⟩ := ih x h
        exact ⟨e, tc0, by simp [hmem], rfl⟩

theorem start_mem_resolveParts (total : Int) (l : List PartRaw) (r : PartR)
    (h : r ∈ resolveParts total l) : r.start ∈ l.map PartRaw.start := by
  obtain ⟨e, p, hmem, rfl⟩ := mem_resolveParts total l r h
  exact List.mem_map.mpr ⟨p, hmem, rfl⟩

/-- C2: the range resolver gives each non-last sibling (among Parts,
Chapters of a Part, Sections of a Chapter, loose Sections of a Part) the
end `next sibling's start - 1`, the last sibling its parent's resolved
end, and the last Part the end `totalPages - 1` — for every tree, hence
in particular for every tree the builder produces. -/
theorem c2_resolver_sibling_ends (totalPages : Int) (parts : List PartRaw) :
    resolvedOk totalPages (resolveParts totalPages parts) = true := by
  unfold resolvedOk
  rw [Bool.and_eq_true]
  refine ⟨sibOkBy_resolveParts totalPages parts, ?_⟩
  rw [List.all_eq_true]
  intro p hp
  obtain ⟨e, p₀, _, rfl⟩ := mem_resolveParts totalPages parts p hp
  rw [Bool.and_eq_true, Bool.and_eq_true]
  refine ⟨⟨sibOkBy_resolveChapters e p₀.chapters, sibOkBy_resolveSecs e p₀.other_sections⟩, ?_⟩
  rw [List.all_eq_true]
  intro tc htc
  obtain ⟨e', tc0, _, rfl⟩ := mem_resolveChapters e p₀.chapters tc htc
  exact sibOkBy_resolveSecs e' tc0.2.sections

/-- C1 counterexample: for the outline `[(1, "Part I", 3)]` with
`totalPages = 5`, page 0 is contained in no Part's range (the first Part
starts at page index 2, not at the root's start 0), so it is not contained
in exactly one Part's range as the claim states. -/
theorem c1_counterexample :
    ¬ ((resolveParts 5 (buildTocFb tocC1)).countP
        (fun r => r.start ≤ (0 : Int) && (0 : Int) ≤ r.end_) = 1) := by
  decide

/-- C1 (amended): sibling ranges are adjacent as claimed, but the first
sibling's start is its own outline page rather than the parent's start;
coverage therefore begins at the first Part's start: when the Parts'
starts are non-decreasing, every page index between the first Part's
start and `totalPages - 1` is contained in exactly one Part's range. -/
theorem c1_unique_part_cover (totalPages pg : Int) (p : PartRaw) (rest : List PartRaw)
    (hmono : (p :: rest).Pairwise (fun a b => a.start ≤ b.start))
    (hlo : p.start ≤ pg) (hhi : pg ≤ totalPages - 1) :
    (resolveParts totalPages (p :: rest)).countP
      (fun r => r.start ≤ pg && pg ≤ r.end_) = 1 := by
  induction rest generalizing p with
  | nil =>
    simp [resolveParts, resolvePart, List.countP_cons, hlo, hhi]
  | cons q rest' ih =>
    rw [show resolveParts totalPages (p :: q :: rest') =
      resolvePart (q.start - 1) p :: resolveParts totalPages (q :: rest') from rfl]
    rw [List.countP_cons]
    by_cases hq : pg ≤ q.start - 1
    · have htail : (resolveParts totalPages (q :: rest')).countP
          (fun r => r.start ≤ pg && pg ≤ r.end_) = 0 := by
        rw [List.countP_eq_zero]
        intro r hr
        have hs := start_mem_resolveParts totalPages (q :: rest') r hr
        have hge : q.start ≤ r.start := by
          rcases List.mem_map.mp hs with ⟨a, ha, heq⟩
          rcases List.mem_cons.mp ha with rfl | ha'
          · omega
          · have := (List.pairwise_cons.mp hmono.of_cons).1 a ha'
            omega
        simp only [Bool.and_eq_true, decide_eq_true_eq, not_and]
        intro hcon
        omega
      rw [htail]
      simp [resolvePart, hlo, hq]
    · have hlo' : q.start ≤ pg := by omega
      have head0 : ((resolvePart (q.start - 1) p).start ≤ pg
          && pg ≤ (resolvePart (q.start - 1) p).end_) = false := by
        simp only [resolvePart, Bool.and_eq_false_iff, decide_eq_false_iff_not]
        right
        omega
      rw [head0]
      simpa using ih q hmono.of_cons hlo'

/-- C1 witness: for two parts starting at page indices 0 and 3 with
`totalPages = 6`, page 4 is contained in exactly one Part's range. -/
theorem c1_witness :
    (resolveParts 6 [⟨"Part I", 0, [], []⟩, ⟨"Part II", 3, [], []⟩]).countP
      (fun r => r.start ≤ (4 : Int) && (4 : Int) ≤ r.end_) = 1 :=
  c1_unique_part_cover 6 4 ⟨"Part I", 0, [], []⟩ [⟨"Part II", 3, [], []⟩]
    (by simp [List.pairwise_cons]) (by norm_num) (by norm_num)

/-- C9 counterexample: on the outline
`[(1,"Part I",1),(2,"Chapter 1",1),(2,"Chapter 2",10)]` with
`totalPages = 20`, the resolved chapter ranges are NOT `[0,9]` and
`[9,19]` as the claim states. -/
theorem c9_counterexample :
    ¬ ((resolveParts 20 (buildTocFb tocC9)).map
        (fun p => p.chapters.map fun tc => (tc.1, tc.2.start, tc.2.end_))
        = [[("Chapter 1", (0 : Int), (9 : Int)), ("Chapter 2", 9, 19)]]) := by
  decide

/-- C9 (amended): on that outline with `totalPages = 20`, resolution
produces Part I with range `[0,19]`, Chapter 1 with range `[0,8]`
(= Chapter 2's start − 1) and Chapter 2 with range `[9,19]`. -/
theorem c9_resolved_ranges :
    resolveParts 20 (buildTocFb tocC9) =
      [⟨"Part I", 0, 19, [],
        [("Chapter 1", ⟨0, 8, [], []⟩), ("Chapter 2", ⟨9, 19, [], []⟩)], []⟩] := by
  decide

theorem updateLast_eq_none {α : Type} (p : α → Bool) (f : α → α) :
    ∀ l : List α, (∀ x ∈ l, p x = false) → updateLast p f l = none := by
  intro l h
  induction l with
  | nil => rfl
  | cons x xs ih =>
    have hx := h x (by simp)
    have ihh := ih fun y hy => h y (by simp [hy])
    simp [updateLast, ihh, hx]

/-- C3 counterexample: with two chapters both starting on page 5
(`totalPages = 10`), the first chapter is resolved to the range `[4, 3]`
— its `end` stays `start - 1 < start`; nothing clamps it to `end = start`
and no warning exists in the code. -/
theorem c3_counterexample :
    ((resolveParts 10 (buildTocFb tocC3)).map
        (fun p => p.chapters.map fun tc => (tc.2.start, tc.2.end_))
        = [[((4 : Int), (3 : Int)), (4, 9)]])
    ∧ ¬ ((4 : Int) ≤ 3) := by
  decide

/-- C3 (amended): a node whose computed `end` is less than its `start` is
kept as-is (no clamping, no warning); its range contains no page, so the
condition is harmless: when every chapter and loose section of a part is
degenerate, any routed fragments fall through to part level. -/
theorem c3_degenerate_is_unroutable (part : PartR) (pg : Int) (ks : List String)
    (hch : ∀ tc ∈ part.chapters, (tc : String × ChapterR).2.end_ < tc.2.start)
    (hos : ∀ s ∈ part.other_sections, (s : SecR).end_ < s.start) :
    route part pg ks = { part with part_knowledge := part.part_knowledge ++ ks } := by
  have h1 : updateLast (fun tc => chContains tc.2 pg)
      (fun tc => (tc.1, routeChapter pg ks tc.2)) part.chapters = none := by
    apply updateLast_eq_none
    intro tc htc
    have := hch tc htc
    simp only [chContains, Bool.and_eq_false_iff, decide_eq_false_iff_not]
    omega
  have h2 : updateLast (fun s => secContains s pg)
      (fun s => { s with knowledge := s.knowledge ++ ks }) part.other_sections = none := by
    apply updateLast_eq_none
    intro s hs
    have := hos s hs
    simp only [secContains, Bool.and_eq_false_iff, decide_eq_false_iff_not]
    omega
  simp [route, h1, h2]

/-- C3 witness: a part whose only chapter has range `[3, 2]` and whose
only loose section has range `[4, 1]` sends page 3's fragments to part
level. -/
theorem c3_witness :
    route ⟨"P", 0, 5, [], [("C", ⟨3, 2, [], []⟩)], [⟨"S", 2, 4, 1, []⟩]⟩ 3 ["k"]
      = ⟨"P", 0, 5, ["k"], [("C", ⟨3, 2, [], []⟩)], [⟨"S", 2, 4, 1, []⟩]⟩ :=
  c3_degenerate_is_unroutable ⟨"P", 0, 5, [], [("C", ⟨3, 2, [], []⟩)], [⟨"S", 2, 4, 1, []⟩]⟩
    3 ["k"] (by decide) (by decide)

/-- C4 counterexample: a NON-empty outline with no Part-classified entry
— a single Chapter entry — produces an empty tree: no whole-document Part
is synthesized (the fallback fires only for an empty outline). -/
theorem c4_counterexample :
    buildTocFb [⟨2, "Chapter 1", 1⟩] = [] := by
  decide

/-- C4 (amended): only an EMPTY outline is replaced by the synthesized
"Part I (Entire PDF)" with start 0 spanning the whole document; any
outline (in particular a non-empty one) containing no Part-classified
entry builds to an empty part list, every entry being dropped. -/
theorem c4_fallback_only_for_empty_outline :
    (∀ total : Int, resolveParts total (buildTocFb [])
        = [⟨"Part I (Entire PDF)", 0, total - 1, [], [], []⟩])
    ∧ ∀ toc : List OutlineEntry,
        (∀ e ∈ toc, ¬(e.level = 1 ∧ partMatch e.title = true)) → buildToc toc = [] := by
  constructor
  · intro total
    have hb : buildTocFb [] = [⟨"Part I (Entire PDF)", 0, [], []⟩] := by decide
    rw [hb]
    rfl
  · intro toc htoc
    have hstep : ∀ e : OutlineEntry, ¬(e.level = 1 ∧ partMatch e.title = true) →
        buildStep ⟨[], none⟩ e = ⟨[], none⟩ := by
      intro e he
      simp [buildStep, he]
    have hfold : ∀ (l : List OutlineEntry),
        (∀ e ∈ l, ¬(e.level = 1 ∧ partMatch e.title = true)) →
        l.foldl buildStep ⟨[], none⟩ = ⟨[], none⟩ := by
      intro l
      induction l with
      | nil => intro _; rfl
      | cons e t ih =>
        intro h
        rw [List.foldl_cons, hstep e (h e (by simp))]
        exact ih fun y hy => h y (by simp [hy])
    unfold buildToc
    rw [hfold toc htoc]
    rfl

/-- C4 witness: the empty outline yields the synthesized whole-document
part for `totalPages = 5`, while a lone Chapter entry yields no part. -/
theorem c4_witness :
    resolveParts 5 (buildTocFb []) = [⟨"Part I (Entire PDF)", 0, 4, [], [], []⟩]
    ∧ buildToc [⟨2, "Chapter 1", 1⟩] = [] :=
  ⟨c4_fallback_only_for_empty_outline.1 5,
   c4_fallback_only_for_empty_outline.2 [⟨2, "Chapter 1", 1⟩] (by decide)⟩

/-- C10: chapters are stored in a title-keyed mapping, so a second
Chapter-classified entry with an identical title replaces the earlier
record — the stored value after insertion is the new record, the key is
not duplicated, and on the concrete duplicate-title outline the built
tree keeps exactly one "Chapter 1" node carrying the later start page 4
with the earlier node's section "Sec A" discarded. -/
theorem c10_duplicate_chapter_title_replaces :
    (∀ (l : List (String × ChapterRaw)) (k : String) (v : ChapterRaw),
        lookupT k (dictInsert k v l) = some v)
    ∧ (∀ (l : List (String × ChapterRaw)) (k : String) (v : ChapterRaw),
        (dictInsert k v l).map Prod.fst =
          if k ∈ l.map Prod.fst then l.map Prod.fst else l.map Prod.fst ++ [k])
    ∧ buildTocFb tocC10 = [⟨"Part I", 0, [("Chapter 1", ⟨4, []⟩)], []⟩] := by
  refine ⟨?_, ?_, by decide⟩
  · intro l k v
    induction l with
    | nil => simp [dictInsert, lookupT]
    | cons x t ih =>
      by_cases h : x.1 = k
      · simp [dictInsert, lookupT, h]
      · simpa [dictInsert, lookupT, h] using ih
  · intro l k v
    induction l with
    | nil => simp [dictInsert]
    | cons x t ih =>
      by_cases h : x.1 = k
      · simp [dictInsert, h]
      · by_cases hm : k ∈ t.map Prod.fst
        · simp only [dictInsert, h, if_neg]
          simp [ih, hm, Ne.symm h]
        · simp only [dictInsert, h, if_neg]
          simp [ih, hm, Ne.symm h]

/-- C5 counterexample: on `tocC5` (`totalPages = 12`) the resolved
sections SA `[0,8]` and SC `[3,11]` are siblings whose ranges both
contain page 4, SC being the later-declared; yet routing page 4's
fragment stores it on SA — the chapter's sections are searched in
forward order, not reverse. -/
theorem c5_counterexample :
    resolveParts 12 (buildTocFb tocC5)
      = [⟨"Part I", 0, 11, [], [("Chapter 1", ⟨0, 11, [],
          [⟨"SA", 3, 0, 8, []⟩, ⟨"SB", 3, 9, 2, []⟩, ⟨"SC", 3, 3, 11, []⟩]⟩)], []⟩]
    ∧ secContains ⟨"SA", 3, 0, 8, []⟩ 4 = true
    ∧ secContains ⟨"SC", 3, 3, 11, []⟩ 4 = true
    ∧ route ⟨"Part I", 0, 11, [], [("Chapter 1", ⟨0, 11, [],
          [⟨"SA", 3, 0, 8, []⟩, ⟨"SB", 3, 9, 2, []⟩, ⟨"SC", 3, 3, 11, []⟩]⟩)], []⟩ 4 ["x"]
      = ⟨"Part I", 0, 11, [], [("Chapter 1", ⟨0, 11, [],
          [⟨"SA", 3, 0, 8, ["x"]⟩, ⟨"SB", 3, 9, 2, []⟩, ⟨"SC", 3, 3, 11, []⟩]⟩)], []⟩ := by
  decide

/-- C5 (amended): a Part's Chapters and its loose Sections are searched
in reverse outline order (later-declared wins any overlap), but the
Sections of a matching Chapter are searched in FORWARD order, so of two
sibling Sections whose ranges both contain the page the earlier-declared
one receives the fragments. -/
theorem c5_tie_break_order :
    (∀ (part : PartR) (pg : Int) (ks : List String) (t1 t2 : String)
        (cA cB : ChapterR) (sA sB : SecR),
      part.chapters = [(t1, cA), (t2, cB)] →
      chContains cA pg = true → chContains cB pg = true →
      cB.sections = [sA, sB] →
      secContains sA pg = true → secContains sB pg = true →
      route part pg ks = { part with chapters :=
        [(t1, cA), (t2, { cB with sections :=
          [{ sA with knowledge := sA.knowledge ++ ks }, sB] })] })
    ∧ ∀ (part : PartR) (pg : Int) (ks : List String) (oA oB : SecR),
      part.chapters = [] →
      part.other_sections = [oA, oB] →
      secContains oA pg = true → secContains oB pg = true →
      route part pg ks = { part with other_sections :=
        [oA, { oB with knowledge := oB.knowledge ++ ks }] } := by
  constructor
  · intro part pg ks t1 t2 cA cB sA sB hch hA hB hsec hsA hsB
    simp [route, hch, updateLast, hB, routeChapter, hsec, updateFirst, hsA]
  · intro part pg ks oA oB hch hos hoA hoB
    simp [route, hch, hos, updateLast, hoB]

/-- C5 witness: two chapters both containing page 5 — the later chapter
receives, and within it the earlier of two containing sections receives;
two loose sections both containing page 5 — the later receives. -/
theorem c5_witness :
    route ⟨"P", 0, 9, [], [("C1", ⟨0, 9, [], []⟩), ("C2", ⟨0, 9, [],
        [⟨"s1", 3, 0, 9, []⟩, ⟨"s2", 3, 0, 9, []⟩]⟩)], []⟩ 5 ["w"]
      = ⟨"P", 0, 9, [], [("C1", ⟨0, 9, [], []⟩), ("C2", ⟨0, 9, [],
        [⟨"s1", 3, 0, 9, ["w"]⟩, ⟨"s2", 3, 0, 9, []⟩]⟩)], []⟩
    ∧ route ⟨"P", 0, 9, [], [], [⟨"o1", 2, 0, 9, []⟩, ⟨"o2", 2, 0, 9, []⟩]⟩ 5 ["w"]
      = ⟨"P", 0, 9, [], [], [⟨"o1", 2, 0, 9, []⟩, ⟨"o2", 2, 0, 9, ["w"]⟩]⟩ :=
  ⟨c5_tie_break_order.1 ⟨"P", 0, 9, [], [("C1", ⟨0, 9, [], []⟩), ("C2", ⟨0, 9, [],
      [⟨"s1", 3, 0, 9, []⟩, ⟨"s2", 3, 0, 9, []⟩]⟩)], []⟩ 5 ["w"] "C1" "C2"
      ⟨0, 9, [], []⟩ ⟨0, 9, [], [⟨"s1", 3, 0, 9, []⟩, ⟨"s2", 3, 0, 9, []⟩]⟩
      ⟨"s1", 3, 0, 9, []⟩ ⟨"s2", 3, 0, 9, []⟩
      rfl (by decide) (by decide) rfl (by decide) (by decide),
   c5_tie_break_order.2 ⟨"P", 0, 9, [], [], [⟨"o1", 2, 0, 9, []⟩, ⟨"o2", 2, 0, 9, []⟩]⟩
      5 ["w"] ⟨"o1", 2, 0, 9, []⟩ ⟨"o2", 2, 0, 9, []⟩
      rfl rfl (by decide) (by decide)⟩

theorem foldl_append_eq_flatten {α : Type} (f : α → List String) :
    ∀ (l : List α) (init : List String),
      l.foldl (fun acc x => acc ++ f x) init = init ++ (l.map f).flatten := by
  intro l
  induction l with
  | nil => intro init; simp
  | cons x t ih => intro init; simp [ih, List.append_assoc]

/-- C7: a Part's combined export list is its own fragments followed by
its loose sections' fragments in order, and is independent of its
Chapters' contents; a Chapter's combined list is its own fragments
followed by its sections' fragments in order. -/
theorem c7_combined_lists :
    (∀ p : PartR, partCombined p
        = p.part_knowledge ++ (p.other_sections.map SecR.knowledge).flatten)
    ∧ (∀ (p : PartR) (chs : List (String × ChapterR)),
        partCombined { p with chapters := chs } = partCombined p)
    ∧ ∀ c : ChapterR, chapterCombined c
        = c.chapter_knowledge ++ (c.sections.map SecR.knowledge).flatten :=
  ⟨fun p => foldl_append_eq_flatten SecR.knowledge p.other_sections p.part_knowledge,
   fun _ _ => rfl,
   fun c => foldl_append_eq_flatten SecR.knowledge c.sections c.chapter_knowledge⟩

/-- C8 counterexample: of two sibling units where the first is empty and
the second has content, the emitted numeric prefixes are `[2]` — not the
gap-free `[1]` that numbering by position among non-empty siblings would
give. -/
theorem c8_counterexample :
    (emitNumbered [⟨"a", 2, 0, 0, []⟩, ⟨"b", 2, 1, 1, ["x"]⟩]).map Prod.fst = [2]
    ∧ ¬ ((emitNumbered [⟨"a", 2, 0, 0, []⟩, ⟨"b", 2, 1, 1, ["x"]⟩]).map Prod.fst
        = List.range' 1 (emitNumbered [⟨"a", 2, 0, 0, []⟩, ⟨"b", 2, 1, 1, ["x"]⟩]).length) := by
  decide

theorem emitAux_eq_enumFrom_filter : ∀ (l : List SecR) (i : Nat),
    emitAux i l = (List.enumFrom i l).filterMap
      fun p => if p.2.knowledge = [] then none else some p := by
  intro l
  induction l with
  | nil => intro i; rfl
  | cons s t ih =>
    intro i
    by_cases h : s.knowledge = []
    · simp [emitAux, List.enumFrom, h, ih]
    · simp [emitAux, List.enumFrom, h, ih]

/-- C8 (amended): a unit with an empty fragment list produces no output,
but the numeric prefix of each emitted unit is its 1-based position among
ALL siblings (empty ones included), so skipped empty units leave gaps in
the numbering. -/
theorem c8_numbering_by_absolute_position :
    ∀ secs : List SecR, emitNumbered secs
      = (List.enumFrom 1 secs).filterMap
          fun p => if p.2.knowledge = [] then none else some p :=
  fun secs => emitAux_eq_enumFrom_filter secs 1

/-! ## Router lemmas for fragment conservation -/

theorem updateLast_some {α : Type} (p : α → Bool) (f : α → α) :
    ∀ (l l' : List α), updateLast p f l = some l' →
      ∃ i x, l[i]? = some x ∧ p x = true ∧ l' = listModify f i l := by
  intro l
  induction l with
  | nil => intro l' h; simp [updateLast] at h
  | cons a t ih =>
    intro l' h
    simp only [updateLast] at h
    cases hu : updateLast p f t with
    | some xs' =>
      rw [hu] at h
      simp only [Option.some.injEq] at h
      obtain ⟨i, x, hg, hp, hmod⟩ := ih xs' hu
      exact ⟨i + 1, x, by simpa using hg, hp, by simp [← h, hmod, listModify]⟩
    | none =>
      rw [hu] at h
      by_cases hp : p a = true
      · rw [if_pos hp] at h
        simp only [Option.some.injEq] at h
        exact ⟨0, a, by simp, hp, by simp [← h, listModify]⟩
      · rw [if_neg hp] at h
        exact absurd h (by simp)

theorem updateFirst_some {α : Type} (p : α → Bool) (f : α → α) :
    ∀ (l l' : List α), updateFirst p f l = some l' →
      ∃ i x, l[i]? = some x ∧ p x = true ∧ l' = listModify f i l := by
  intro l
  induction l with
  | nil => intro l' h; simp [updateFirst] at h
  | cons a t ih =>
    intro l' h
    simp only [updateFirst] at h
    by_cases hp : p a = true
    · rw [if_pos hp] at h
      simp only [Option.some.injEq] at h
      exact ⟨0, a, by simp, hp, by simp [← h, listModify]⟩
    · rw [if_neg hp] at h
      cases hu : updateFirst p f t with
      | none => rw [hu] at h; simp at h
      | some xs' =>
        rw [hu] at h
        simp only [Option.map_some', Option.some.injEq] at h
        obtain ⟨i, x, hg, hpx, hmod⟩ := ih xs' hu
        exact ⟨i + 1, x, by simpa using hg, hpx, by simp [← h, hmod, listModify]⟩

theorem listModify_congr {α : Type} (f g : α → α) :
    ∀ (l : List α) (i : Nat) (x : α), l[i]? = some x → f x = g x →
      listModify f i l = listModify g i l := by
  intro l
  induction l with
  | nil => intro i x h; simp at h
  | cons a t ih =>
    intro i x h hfg
    cases i with
    | zero => simp only [List.getElem?_cons_zero, Option.some.injEq] at h; subst h; simp [listModify, hfg]
    | succ n => simp only [List.getElem?_cons_succ] at h; simp [listModify, ih n x h hfg]

theorem listModify_map_sum {α : Type} (m : α → Multiset String) (f : α → α)
    (d : Multiset String) (hf : ∀ x, m (f x) = m x + d) :
    ∀ (l : List α) (i : Nat) (x : α), l[i]? = some x →
      ((listModify f i l).map m).sum = (l.map m).sum + d := by
  intro l
  induction l with
  | nil => intro i x h; simp at h
  | cons a t ih =>
    intro i x h
    cases i with
    | zero =>
      simp only [listModify, List.map_cons, List.sum_cons, hf a]
      exact add_right_comm (m a) d (t.map m).sum
    | succ n =>
      simp only [List.getElem?_cons_succ] at h
      simp only [listModify, List.map_cons, List.sum_cons, ih n x h]
      exact (add_assoc (m a) (t.map m).sum d).symm

theorem chFragsM_routeChapter (pg : Int) (ks : List String) (c : ChapterR) :
    chFragsM (routeChapter pg ks c) = chFragsM c + (ks : Multiset String) := by
  unfold routeChapter
  cases hu : updateFirst (fun s => secContains s pg)
      (fun s => { s with knowledge := s.knowledge ++ ks }) c.sections with
  | some secs =>
    obtain ⟨i, x, hg, _, rfl⟩ := updateFirst_some _ _ _ _ hu
    simp only [chFragsM]
    rw [listModify_map_sum secFragsM _ (ks : Multiset String)
      (fun s => by simp [secFragsM]) c.sections i x hg]
    exact (add_assoc _ _ _).symm
  | none =>
    simp only [chFragsM]
    show (↑(c.chapter_knowledge ++ ks) : Multiset String) + _ = _
    rw [← Multiset.coe_add]
    exact add_right_comm _ _ _

theorem partFragsM_route (part : PartR) (pg : Int) (ks : List String) :
    partFragsM (route part pg ks) = partFragsM part + (ks : Multiset String) := by
  unfold route
  cases h1 : updateLast (fun tc => chContains tc.2 pg)
      (fun tc => (tc.1, routeChapter pg ks tc.2)) part.chapters with
  | some chs =>
    obtain ⟨i, x, hg, _, rfl⟩ := updateLast_some _ _ _ _ h1
    simp only [partFragsM]
    rw [listModify_map_sum (fun tc => chFragsM tc.2) _ (ks : Multiset String)
      (fun tc => chFragsM_routeChapter pg ks tc.2) part.chapters i x hg]
    abel
  | none =>
    cases h2 : updateLast (fun s => secContains s pg)
        (fun s => { s with knowledge := s.knowledge ++ ks }) part.other_sections with
    | some os =>
      obtain ⟨j, y, hgj, _, rfl⟩ := updateLast_some _ _ _ _ h2
      simp only [partFragsM]
      rw [listModify_map_sum secFragsM _ (ks : Multiset String)
        (fun s => by simp [secFragsM]) part.other_sections j y hgj]
      abel
    | none =>
      simp only [partFragsM]
      show (↑(part.part_knowledge ++ ks) : Multiset String) + _ + _ = _
      rw [← Multiset.coe_add]
      abel

theorem route_appendKsAt (part : PartR) (pg : Int) (ks : List String) :
    ∃ ℓ : RouteLoc, route part pg ks = appendKsAt ℓ ks part := by
  unfold route
  cases h1 : updateLast (fun tc => chContains tc.2 pg)
      (fun tc => (tc.1, routeChapter pg ks tc.2)) part.chapters with
  | some chs =>
    obtain ⟨i, x, hg, _, rfl⟩ := updateLast_some _ _ _ _ h1
    cases h2 : updateFirst (fun s => secContains s pg)
        (fun s => { s with knowledge := s.knowledge ++ ks }) x.2.sections with
    | some secs =>
      obtain ⟨j, y, hgj, _, rfl⟩ := updateFirst_some _ _ _ _ h2
      refine ⟨.atSection i j, ?_⟩
      simp only [appendKsAt]
      congr 1
      exact listModify_congr _ _ part.chapters i x hg (by simp [routeChapter, h2])
    | none =>
      refine ⟨.atChapter i, ?_⟩
      simp only [appendKsAt]
      congr 1
      exact listModify_congr _ _ part.chapters i x hg (by simp [routeChapter, h2])
  | none =>
    cases h2 : updateLast (fun s => secContains s pg)
        (fun s => { s with knowledge := s.knowledge ++ ks }) part.other_sections with
    | some os =>
      obtain ⟨j, y, hgj, _, rfl⟩ := updateLast_some _ _ _ _ h2
      exact ⟨.atOther j, rfl⟩
    | none => exact ⟨.atPart, rfl⟩

theorem partFragsM_routeAll : ∀ (calls : List (Int × List String)) (part : PartR),
    partFragsM (routeAll part calls)
      = partFragsM part + (calls.map fun c => (c.2 : Multiset String)).sum := by
  intro calls
  induction calls with
  | nil => intro part; simp [routeAll]
  | cons c t ih =>
    intro part
    show partFragsM (routeAll (route part c.1 c.2) t) = _
    rw [ih (route part c.1 c.2), partFragsM_route]
    simp only [List.map_cons, List.sum_cons]
    abel

/-- C6: each routing call appends the fragment list, in order, to exactly
one node of the part (there is a single location whose own-fragments list
is extended, all other nodes untouched), and over any run the multiset of
all stored fragments equals the initial contents plus exactly the
multiset of all fragments ever routed — nothing lost, nothing duplicated. -/
theorem c6_route_exactly_one_node :
    (∀ (part : PartR) (pg : Int) (ks : List String),
      ∃ ℓ : RouteLoc, route part pg ks = appendKsAt ℓ ks part)
    ∧ ∀ (part : PartR) (calls : List (Int × List String)),
      partFragsM (routeAll part calls)
        = partFragsM part + (calls.map fun c => (c.2 : Multiset String)).sum :=
  ⟨route_appendKsAt, fun part calls => partFragsM_routeAll calls part⟩

end Summarizer
